import Mathlib

/-!
Verification of the double-bagz event-log aggregation service.

The repository reconstructs a ranked leaderboard of participants from raw
on-chain history.  The relevant source lives in:

* src/app/api/leaderboard/route.ts — two near-duplicate handler versions:
  the first ("v1", lines 1-127) aggregates the Buy event
  "Buy(address indexed user, uint64 totalBuys, uint256 ethAmount, uint16 newBonusPercent)"
  by unconditionally overwriting per-user stats with the latest event;
  the second ("v2", lines 128-328) aggregates
  "Buy(address indexed user, uint256 ethPaid, uint64 userTotalBuys, uint32 buysInCurrentWindow)"
  keeping a stored value only when the new running total is strictly greater,
  then enriches each wallet with the bonusPercent(address) contract read.
* src/app/api/final-summary/route.ts — same v2 Buy aggregation plus a
  Claim-event sum and the same enrichment.
* src/unnamed/part_001 — a third variant that counts one buy per raw event,
  derives bonusPercent from the count, and truncates to 100 rows.

Numbers: the TypeScript code works with JS numbers (BigNumber.toNumber()
results and double arithmetic).  Counters are modelled as Nat and the dollar
arithmetic as exact rationals (ℚ); the structure of every formula is taken
verbatim from the source.
-/

namespace DoubleBagz

/-- Chunk width constant CHUNK_SIZE_BLOCKS (both route files): 200_000. -/
def CHUNK_SIZE_BLOCKS : Nat := 200000

/-- PRICE_PER_BUY_USD = 0.1 dollars per buy, modelled exactly. -/
def PRICE_PER_BUY_USD : ℚ := 1 / 10

/-- Case normalization of an address string (JS String.prototype.toLowerCase,
which on the ASCII hex strings involved agrees with per-character toLower). -/
def toLower (s : String) : String := ⟨s.data.map Char.toLower⟩

/-- Decoded Buy event of the v1 leaderboard handler:
event Buy(address indexed user, uint64 totalBuys, uint256 ethAmount, uint16 newBonusPercent). -/
structure BuyEventV1 where
  user : String
  totalBuys : Nat
  ethAmount : Nat
  newBonusPercent : Nat
deriving DecidableEq, Repr

/-- Decoded Buy event of the v2 leaderboard / final-summary / unnamed handlers:
event Buy(address indexed user, uint256 ethPaid, uint64 userTotalBuys, uint32 buysInCurrentWindow). -/
structure BuyEvent where
  user : String
  ethPaid : Nat
  userTotalBuys : Nat
  buysInCurrentWindow : Nat
deriving DecidableEq, Repr

/-- Decoded Claim event of the final-summary handler:
event Claim(address indexed user, uint256 allocationsClaimed, uint256 tokensPaid). -/
structure ClaimEvent where
  user : String
  allocationsClaimed : Nat
  tokensPaid : Nat
deriving DecidableEq, Repr

/-- Per-wallet record of the leaderboard handlers:
Map value { totalBuys: number; bonusPercent: number }. -/
structure LBStats where
  totalBuys : Nat
  bonusPercent : Nat
deriving DecidableEq, Repr

/-- Per-wallet record of the final-summary handler:
Map value { totalBuys: number; totalClaims: number; bonusPercent: number }. -/
structure FSStats where
  totalBuys : Nat
  totalClaims : Nat
  bonusPercent : Nat
deriving DecidableEq, Repr

/-- JS Map model: association list in insertion order.  Map.set replaces the
value of an existing key in place and appends a fresh key at the end. -/
def setEntry {β : Type} (k : String) (v : β) : List (String × β) → List (String × β)
  | [] => [(k, v)]
  | e :: rest => if e.1 = k then (k, v) :: rest else e :: setEntry k v rest

/-- JS Map.get model. -/
def getEntry {β : Type} (k : String) : List (String × β) → Option β
  | [] => none
  | e :: rest => if e.1 = k then some e.2 else getEntry k rest

/-- One Buy event folded by the v1 leaderboard handler (route.ts v1 lines
74-89): userStats.set(user, { totalBuys, bonusPercent }) unconditionally —
"for each user, keep the latest totalBuys / bonusPercent we see". -/
def applyBuyV1 (m : List (String × LBStats)) (ev : BuyEventV1) : List (String × LBStats) :=
  setEntry (toLower ev.user) { totalBuys := ev.totalBuys, bonusPercent := ev.newBonusPercent } m

/-- One Buy event folded by the v2 leaderboard handler (route.ts v2 lines
249-269): the stored record is replaced only when no record exists or the
event's running total is strictly greater; bonusPercent is temporarily 0. -/
def applyBuyLB (m : List (String × LBStats)) (ev : BuyEvent) : List (String × LBStats) :=
  let user := toLower ev.user
  match getEntry user m with
  | none => setEntry user { totalBuys := ev.userTotalBuys, bonusPercent := 0 } m
  | some existing =>
      if existing.totalBuys < ev.userTotalBuys then
        setEntry user { totalBuys := ev.userTotalBuys, bonusPercent := 0 } m
      else m

/-- One Buy event folded by the final-summary handler (final-summary route
lines 129-148): same strictly-greater rule, preserving the other fields. -/
def applyBuyFS (m : List (String × FSStats)) (ev : BuyEvent) : List (String × FSStats) :=
  let user := toLower ev.user
  match getEntry user m with
  | none =>
      setEntry user { totalBuys := ev.userTotalBuys, totalClaims := 0, bonusPercent := 0 } m
  | some existing =>
      if existing.totalBuys < ev.userTotalBuys then
        setEntry user
          { totalBuys := ev.userTotalBuys, totalClaims := existing.totalClaims,
            bonusPercent := existing.bonusPercent } m
      else m

/-- One Claim event folded by the final-summary handler (lines 171-192):
existing (defaulted to zeroes) with totalClaims increased by
allocationsClaimed — "allocationsClaimed is per-tx, so we SUM it". -/
def applyClaim (m : List (String × FSStats)) (ev : ClaimEvent) : List (String × FSStats) :=
  let user := toLower ev.user
  let existing := (getEntry user m).getD { totalBuys := 0, totalClaims := 0, bonusPercent := 0 }
  setEntry user { existing with totalClaims := existing.totalClaims + ev.allocationsClaimed } m

/-- Enrichment phase of the v2 leaderboard handler (lines 272-292): for each
wallet, read bonusPercent(wallet); on success store it, on failure leave the
record unchanged ("Leave bonusPercent as 0 if it fails").  The read outcome is
modelled as an Option. -/
def enrichLB (readBonus : String → Option Nat) (m : List (String × LBStats)) :
    List (String × LBStats) :=
  m.map fun e =>
    match readBonus e.1 with
    | some bp => (e.1, { e.2 with bonusPercent := bp })
    | none => e

/-- Enrichment phase of the final-summary handler (lines 195-213), identical
per-wallet try/catch structure. -/
def enrichFS (readBonus : String → Option Nat) (m : List (String × FSStats)) :
    List (String × FSStats) :=
  m.map fun e =>
    match readBonus e.1 with
    | some bp => (e.1, { e.2 with bonusPercent := bp })
    | none => e

/-- Output row of the leaderboard handlers. -/
structure LBRow where
  wallet : String
  totalBuys : Nat
  bonusPercent : Nat
  bonusValueUsd : ℚ
deriving DecidableEq, Repr

/-- Output row of the final-summary handler. -/
structure SummaryRow where
  wallet : String
  totalBuys : Nat
  totalClaims : Nat
  bonusPercent : Nat
  bonusValueUsd : ℚ
deriving DecidableEq, Repr

/-- Row construction of the v2 leaderboard handler (lines 297-309):
base = totalBuys * PRICE_PER_BUY_USD; bonusValueUsd = base * (1 + bonusPercent / 100). -/
def lbRowOf (w : String) (s : LBStats) : LBRow :=
  { wallet := w, totalBuys := s.totalBuys, bonusPercent := s.bonusPercent,
    bonusValueUsd := (s.totalBuys : ℚ) * PRICE_PER_BUY_USD * (1 + (s.bonusPercent : ℚ) / 100) }

/-- Row loop of the v2 leaderboard handler: entries with totalBuys === 0 are
skipped, the rest are pushed in map order. -/
def buildLBRows (m : List (String × LBStats)) : List LBRow :=
  m.filterMap fun e => if e.2.totalBuys = 0 then none else some (lbRowOf e.1 e.2)

/-- Row construction of the final-summary handler (lines 216-231). -/
def fsRowOf (w : String) (s : FSStats) : SummaryRow :=
  { wallet := w, totalBuys := s.totalBuys, totalClaims := s.totalClaims,
    bonusPercent := s.bonusPercent,
    bonusValueUsd := (s.totalBuys : ℚ) * PRICE_PER_BUY_USD * (1 + (s.bonusPercent : ℚ) / 100) }

/-- Row loop of the final-summary handler: entries with both counters 0 are
skipped. -/
def buildFSRows (m : List (String × FSStats)) : List SummaryRow :=
  m.filterMap fun e =>
    if e.2.totalBuys = 0 ∧ e.2.totalClaims = 0 then none else some (fsRowOf e.1 e.2)

/-- Stable insertion step: place a before the first element b with r a b,
otherwise keep walking.  With r x y = "x may come weakly before y", this is
exactly the order a stable comparison sort (JS Array.prototype.sort, stable
per ES2019) produces. -/
def orderedIns {α : Type} (r : α → α → Bool) (a : α) : List α → List α
  | [] => [a]
  | b :: l => if r a b then a :: b :: l else b :: orderedIns r a l

/-- Stable sort by the Boolean weak-precedence relation r. -/
def stableSort {α : Type} (r : α → α → Bool) (l : List α) : List α :=
  l.foldr (orderedIns r) []

/-- Comparator of the v2 leaderboard handler (lines 312-315):
(a, b) => b.totalBuys !== a.totalBuys ? b.totalBuys - a.totalBuys : b.bonusPercent - a.bonusPercent.
lbBefore a b holds when the comparator is non-positive, i.e. a may stay before b. -/
def lbBefore (a b : LBRow) : Bool :=
  if a.totalBuys ≠ b.totalBuys then decide (b.totalBuys < a.totalBuys)
  else decide (b.bonusPercent ≤ a.bonusPercent)

/-- Comparator of the final-summary handler (lines 234-237), same shape. -/
def fsBefore (a b : SummaryRow) : Bool :=
  if a.totalBuys ≠ b.totalBuys then decide (b.totalBuys < a.totalBuys)
  else decide (b.bonusPercent ≤ a.bonusPercent)

/-- Sorted leaderboard rows (v2 handler): highest totalBuys first, then
highest bonusPercent; ties keep insertion order (stable sort). -/
def sortLBRows (l : List LBRow) : List LBRow := stableSort lbBefore l

/-- Sorted final-summary rows. -/
def sortFSRows (l : List SummaryRow) : List SummaryRow := stableSort fsBefore l

/-- The chain, abstracted for the scan claims: the (decoded or raw) logs each
block emits from the watched address, in block order.  An eth_getLogs query
over an inclusive block range returns the logs of the blocks of the range, in
increasing block order. -/
def getLogsRange {α : Type} (chain : Nat → List α) (fromB toB : Nat) : List α :=
  (List.range' fromB (toB + 1 - fromB)).flatMap chain

/-- The chunked scan loop shared by both route files (leaderboard v1 lines
57-90, v2 lines 227-270, final-summary lines 111-149):

for (let fromBlock = DEPLOY; fromBlock <= latest; fromBlock += CHUNK + 1)
  toBlock = min(fromBlock + CHUNK, latest); logs = getLogs(fromBlock, toBlock)

One query per chunk; any per-chunk RPC failure aborts the whole scan (the
thrown error propagates); per-chunk results are concatenated in loop order. -/
def scanE {α : Type} (q : Nat → Nat → Except String (List α)) (C fromB latest : Nat) :
    Except String (List α) :=
  if _h : fromB ≤ latest then
    match q fromB (min (fromB + C) latest) with
    | .error e => .error e
    | .ok logs =>
        match scanE q C (fromB + C + 1) latest with
        | .error e => .error e
        | .ok rest => .ok (logs ++ rest)
  else .ok []
termination_by latest + 1 - fromB
decreasing_by omega

/-- The inclusive sub-ranges the scan loop visits, in loop order. -/
def chunkRanges (C fromB latest : Nat) : List (Nat × Nat) :=
  if _h : fromB ≤ latest then
    (fromB, min (fromB + C) latest) :: chunkRanges C (fromB + C + 1) latest
  else []
termination_by latest + 1 - fromB
decreasing_by omega

/-- The v2 leaderboard handler GET body (lines 206-317), after abstracting the
RPC transport: chunked scan of Buy logs from the deploy block to the latest
block, fold into the per-wallet map, per-wallet bonusPercent enrichment, row
construction and sort.  The route folds each chunk's logs as the chunk
arrives; since a scan failure aborts the request before any row is produced,
folding the concatenated scan result is observationally the same. -/
def leaderboardV2 (latest deploy : Nat) (q : Nat → Nat → Except String (List BuyEvent))
    (readBonus : String → Option Nat) : Except String (List LBRow) :=
  match scanE q CHUNK_SIZE_BLOCKS deploy latest with
  | .error e => .error e
  | .ok logs =>
      .ok (sortLBRows (buildLBRows (enrichLB readBonus (logs.foldl applyBuyLB []))))

/-- The final-summary handler GET body (lines 88-239): Buy scan and fold,
Claim scan and fold, enrichment, rows, sort. -/
def finalSummary (latest buyDeploy claimDeploy : Nat)
    (qBuy : Nat → Nat → Except String (List BuyEvent))
    (qClaim : Nat → Nat → Except String (List ClaimEvent))
    (readBonus : String → Option Nat) : Except String (List SummaryRow) :=
  match scanE qBuy CHUNK_SIZE_BLOCKS buyDeploy latest with
  | .error e => .error e
  | .ok buyLogs =>
      match scanE qClaim CHUNK_SIZE_BLOCKS claimDeploy latest with
      | .error e => .error e
      | .ok claimLogs =>
          .ok (sortFSRows (buildFSRows (enrichFS readBonus
            (claimLogs.foldl applyClaim (buyLogs.foldl applyBuyFS [])))))

/-- Output row of the unnamed handler (src/unnamed/part_001). -/
structure Part1Row where
  wallet : String
  totalBuys : Nat
  bonusPercent : Nat
  bonusValueUsd : ℚ
deriving DecidableEq, Repr

/-- Per-event aggregation of the unnamed handler (part_001 lines 87-96):
totals[user] += 1, one buy per event; the user is NOT lower-cased there. -/
def bumpTotals (m : List (String × Nat)) (u : String) : List (String × Nat) :=
  match getEntry u m with
  | none => setEntry u 1 m
  | some n => setEntry u (n + 1) m

/-- Row construction of the unnamed handler (part_001 lines 143-158):
bonusPercent = min(floor(totalBuys / 10), maxBonusPercent);
bonusValueUsd = totalBuys * 0.1 — the bonus percent is not applied. -/
def part1RowOf (maxBonusPercent : Nat) (w : String) (n : Nat) : Part1Row :=
  { wallet := w, totalBuys := n,
    bonusPercent := min (n / 10) maxBonusPercent,
    bonusValueUsd := (n : ℚ) * (1 / 10) }

/-- Comparator of the unnamed handler (line 160): (a, b) => b.totalBuys - a.totalBuys. -/
def p1Before (a b : Part1Row) : Bool := decide (b.totalBuys ≤ a.totalBuys)

/-- All rows of the unnamed handler before truncation, in Record key
(insertion) order. -/
def part1AllRows (maxBonusPercent : Nat) (evs : List BuyEvent) : List Part1Row :=
  ((evs.foldl (fun m ev => bumpTotals m ev.user) []).map fun e =>
    part1RowOf maxBonusPercent e.1 e.2)

/-- The unnamed handler's output (lines 143-164): sort all rows by totalBuys
descending, then slice the first 100. -/
def part1Top (maxBonusPercent : Nat) (evs : List BuyEvent) : List Part1Row :=
  (stableSort p1Before (part1AllRows maxBonusPercent evs)).take 100

/-! ### Association-list (JS Map) lemmas -/

theorem getEntry_setEntry_self {β : Type} (k : String) (v : β) (m : List (String × β)) :
    getEntry k (setEntry k v m) = some v := by
  induction m with
  | nil => simp [setEntry, getEntry]
  | cons e rest ih =>
      by_cases h : e.1 = k
      · simp [setEntry, getEntry, h]
      · simp [setEntry, getEntry, h, ih]

theorem getEntry_setEntry_ne {β : Type} {u k : String} (h : u ≠ k) (v : β)
    (m : List (String × β)) : getEntry u (setEntry k v m) = getEntry u m := by
  induction m with
  | nil => simp [setEntry, getEntry, Ne.symm h]
  | cons e rest ih =>
      by_cases he : e.1 = k
      · subst he
        simp [setEntry, getEntry, h, Ne.symm h]
      · by_cases hu : e.1 = u
        · simp [setEntry, getEntry, he, hu, h]
        · simp [setEntry, getEntry, he, hu, ih]

theorem mem_map_fst_setEntry {β : Type} {u k : String} {v : β} {m : List (String × β)} :
    u ∈ (setEntry k v m).map Prod.fst ↔ u = k ∨ u ∈ m.map Prod.fst := by
  induction m with
  | nil => simp [setEntry]
  | cons e rest ih =>
      by_cases he : e.1 = k
      · subst he
        simp [setEntry]
      · simp only [setEntry, if_neg he, List.map_cons, List.mem_cons, ih]
        tauto

theorem nodup_map_fst_setEntry {β : Type} (k : String) (v : β) {m : List (String × β)}
    (h : (m.map Prod.fst).Nodup) : ((setEntry k v m).map Prod.fst).Nodup := by
  induction m with
  | nil => simp [setEntry]
  | cons e rest ih =>
      simp only [List.map_cons, List.nodup_cons] at h
      by_cases he : e.1 = k
      · subst he
        simpa [setEntry] using h
      · simp only [setEntry, if_neg he, List.map_cons, List.nodup_cons]
        refine ⟨fun hmem => ?_, ih h.2⟩
        rcases mem_map_fst_setEntry.mp hmem with rfl | hmem
        · exact he rfl
        · exact h.1 hmem

/-! ### Stable sort lemmas -/

theorem orderedIns_perm {α : Type} (r : α → α → Bool) (a : α) (l : List α) :
    (orderedIns r a l).Perm (a :: l) := by
  induction l with
  | nil => simp [orderedIns]
  | cons b l ih =>
      by_cases h : r a b
      · simp [orderedIns, h]
      · simp only [orderedIns, if_neg h]
        exact ((ih.cons b).trans (List.Perm.swap a b l))

theorem stableSort_perm {α : Type} (r : α → α → Bool) (l : List α) :
    (stableSort r l).Perm l := by
  induction l with
  | nil => simp [stableSort]
  | cons a l ih =>
      exact (orderedIns_perm r a (stableSort r l)).trans (ih.cons a)

theorem mem_orderedIns {α : Type} {r : α → α → Bool} {x a : α} {l : List α} :
    x ∈ orderedIns r a l ↔ x = a ∨ x ∈ l := by
  rw [(orderedIns_perm r a l).mem_iff]
  simp

theorem pairwise_orderedIns {α : Type} {r : α → α → Bool}
    (htot : ∀ a b, r a b = true ∨ r b a = true)
    (htrans : ∀ a b c, r a b = true → r b c = true → r a c = true)
    (a : α) {l : List α} (h : l.Pairwise fun x y => r x y = true) :
    (orderedIns r a l).Pairwise fun x y => r x y = true := by
  induction l with
  | nil => simp [orderedIns]
  | cons b l ih =>
      rcases List.pairwise_cons.mp h with ⟨hb, hl⟩
      by_cases hab : r a b = true
      · simp only [orderedIns, if_pos hab]
        refine List.pairwise_cons.mpr ⟨?_, h⟩
        intro c hc
        rcases List.mem_cons.mp hc with rfl | hc
        · exact hab
        · exact htrans a b c hab (hb c hc)
      · simp only [orderedIns, if_neg hab]
        refine List.pairwise_cons.mpr ⟨?_, ih hl⟩
        intro c hc
        rcases mem_orderedIns.mp hc with hca | hc
        · rcases htot a b with hab2 | hba
          · exact absurd hab2 hab
          · rw [hca]
            exact hba
        · exact hb c hc

theorem pairwise_stableSort {α : Type} {r : α → α → Bool}
    (htot : ∀ a b, r a b = true ∨ r b a = true)
    (htrans : ∀ a b c, r a b = true → r b c = true → r a c = true)
    (l : List α) : (stableSort r l).Pairwise fun x y => r x y = true := by
  induction l with
  | nil => simp [stableSort]
  | cons a l ih => exact pairwise_orderedIns htot htrans a ih

theorem filter_orderedIns_pos {α : Type} {r : α → α → Bool} {p : α → Bool} {a : α}
    (hpa : p a = true) (hskip : ∀ b, p b = true → r a b = true) (l : List α) :
    (orderedIns r a l).filter p = a :: l.filter p := by
  induction l with
  | nil => simp [orderedIns, hpa]
  | cons b l ih =>
      by_cases hab : r a b
      · simp [orderedIns, hab, hpa]
      · have hpb : p b = false := by
          cases hb : p b
          · rfl
          · exact absurd (hskip b hb) hab
        simp [orderedIns, if_neg hab, hpb, ih]

theorem filter_orderedIns_neg {α : Type} {r : α → α → Bool} {p : α → Bool} {a : α}
    (hpa : p a = false) (l : List α) :
    (orderedIns r a l).filter p = l.filter p := by
  induction l with
  | nil => simp [orderedIns, hpa]
  | cons b l ih =>
      by_cases hab : r a b
      · simp [orderedIns, hab, hpa]
      · cases hpb : p b
        · simp [orderedIns, if_neg hab, hpb, ih]
        · simp [orderedIns, if_neg hab, hpb, ih]

theorem filter_stableSort {α : Type} {r : α → α → Bool} {p : α → Bool}
    (hp : ∀ a b, p a = true → p b = true → r a b = true) (l : List α) :
    (stableSort r l).filter p = l.filter p := by
  induction l with
  | nil => simp [stableSort]
  | cons a l ih =>
      show (orderedIns r a (stableSort r l)).filter p = (a :: l).filter p
      cases hpa : p a
      · rw [filter_orderedIns_neg hpa, ih, List.filter_cons, hpa]
        simp
      · rw [filter_orderedIns_pos hpa (fun b hb => hp a b hpa hb), ih,
          List.filter_cons, hpa]
        simp

/-! ### Range-scanner lemmas -/

theorem getLogsRange_empty {α : Type} (chain : Nat → List α) {a b : Nat} (h : b < a) :
    getLogsRange chain a b = [] := by
  unfold getLogsRange
  have : b + 1 - a = 0 := by omega
  simp [this]

theorem getLogsRange_split {α : Type} (chain : Nat → List α) {a b c : Nat}
    (h1 : a ≤ b) (h2 : b ≤ c) :
    getLogsRange chain a b ++ getLogsRange chain (b + 1) c = getLogsRange chain a c := by
  have key := List.range'_append_1 a (b + 1 - a) (c - b)
  have e1 : a + (b + 1 - a) = b + 1 := by omega
  have e2 : c - b + (b + 1 - a) = c + 1 - a := by omega
  have e3 : c + 1 - (b + 1) = c - b := by omega
  rw [e1, e2] at key
  unfold getLogsRange
  rw [e3, ← key, List.flatMap_append]

theorem chunkRanges_nil {C fromB latest : Nat} (h : latest < fromB) :
    chunkRanges C fromB latest = [] := by
  unfold chunkRanges
  simp [Nat.not_le.mpr h]

theorem chunkRanges_cons {C fromB latest : Nat} (h : fromB ≤ latest) :
    chunkRanges C fromB latest =
      (fromB, min (fromB + C) latest) :: chunkRanges C (fromB + C + 1) latest := by
  conv_lhs => unfold chunkRanges
  simp [h]

theorem scanE_nil {α : Type} (q : Nat → Nat → Except String (List α)) {C fromB latest : Nat}
    (h : latest < fromB) : scanE q C fromB latest = Except.ok [] := by
  unfold scanE
  simp [Nat.not_le.mpr h]

/-- The scan issues exactly one query per chunk sub-range, in loop order, and
concatenates the results. -/
theorem scanE_chunks_aux {α : Type} (chain : Nat → List α) (C : Nat) :
    ∀ (n fromB latest : Nat), latest + 1 - fromB ≤ n →
    scanE (fun lo hi => Except.ok (getLogsRange chain lo hi)) C fromB latest =
      Except.ok ((chunkRanges C fromB latest).flatMap fun p =>
        getLogsRange chain p.1 p.2) := by
  intro n
  induction n with
  | zero =>
      intro fromB latest h
      have hlt : latest < fromB := by omega
      rw [scanE_nil _ hlt, chunkRanges_nil hlt]
      simp
  | succ n ih =>
      intro fromB latest h
      by_cases hle : fromB ≤ latest
      · have hrec := ih (fromB + C + 1) latest (by omega)
        rw [chunkRanges_cons hle]
        conv_lhs => unfold scanE
        simp only [dif_pos hle, hrec]
        simp
      · have hlt : latest < fromB := by omega
        rw [scanE_nil _ hlt, chunkRanges_nil hlt]
        simp

theorem chunkRanges_cover_aux (C : Nat) :
    ∀ (n fromB latest : Nat), latest + 1 - fromB ≤ n →
    (chunkRanges C fromB latest).flatMap (fun p => List.range' p.1 (p.2 + 1 - p.1)) =
      List.range' fromB (latest + 1 - fromB) := by
  intro n
  induction n with
  | zero =>
      intro fromB latest h
      have hlt : latest < fromB := by omega
      rw [chunkRanges_nil hlt]
      have : latest + 1 - fromB = 0 := by omega
      simp [this]
  | succ n ih =>
      intro fromB latest h
      by_cases hle : fromB ≤ latest
      · rw [chunkRanges_cons hle]
        simp only [List.flatMap_cons]
        rw [ih (fromB + C + 1) latest (by omega)]
        by_cases hC : fromB + C ≤ latest
        · have h1 : min (fromB + C) latest = fromB + C := by omega
          have key := List.range'_append_1 fromB (fromB + C + 1 - fromB) (latest - (fromB + C))
          have e1 : fromB + (fromB + C + 1 - fromB) = fromB + C + 1 := by omega
          have e2 : latest - (fromB + C) + (fromB + C + 1 - fromB) = latest + 1 - fromB := by
            omega
          rw [e1, e2] at key
          have e3 : latest + 1 - (fromB + C + 1) = latest - (fromB + C) := by omega
          rw [h1, e3, ← key]
        · have h1 : min (fromB + C) latest = latest := by omega
          have h2 : latest + 1 - (fromB + C + 1) = 0 := by omega
          rw [h1, h2]
          simp
      · have hlt : latest < fromB := by omega
        rw [chunkRanges_nil hlt]
        have : latest + 1 - fromB = 0 := by omega
        simp [this]

theorem chunkRanges_bounds_aux (C : Nat) :
    ∀ (n fromB latest : Nat), latest + 1 - fromB ≤ n →
    ∀ p ∈ chunkRanges C fromB latest,
      fromB ≤ p.1 ∧ p.1 ≤ p.2 ∧ p.2 - p.1 ≤ C ∧ p.2 ≤ latest := by
  intro n
  induction n with
  | zero =>
      intro fromB latest h p hp
      rw [chunkRanges_nil (by omega)] at hp
      simp at hp
  | succ n ih =>
      intro fromB latest h p hp
      by_cases hle : fromB ≤ latest
      · rw [chunkRanges_cons hle] at hp
        rcases List.mem_cons.mp hp with rfl | hp
        · refine ⟨Nat.le_refl _, ?_, ?_, ?_⟩ <;> simp <;> omega
        · have := ih (fromB + C + 1) latest (by omega) p hp
          exact ⟨by omega, this.2.1, this.2.2.1, this.2.2.2⟩
      · rw [chunkRanges_nil (by omega)] at hp
        simp at hp

theorem chunkRanges_chain_aux (C : Nat) :
    ∀ (n fromB latest : Nat), latest + 1 - fromB ≤ n →
    List.Chain' (fun p q => q.1 = p.2 + 1) (chunkRanges C fromB latest) := by
  intro n
  induction n with
  | zero =>
      intro fromB latest h
      rw [chunkRanges_nil (by omega)]
      exact List.chain'_nil
  | succ n ih =>
      intro fromB latest h
      by_cases hle : fromB ≤ latest
      · rw [chunkRanges_cons hle]
        by_cases hle2 : fromB + C + 1 ≤ latest
        · rw [chunkRanges_cons hle2]
          refine List.Chain'.cons ?_ ?_
          · simp
            omega
          · have := ih (fromB + C + 1) latest (by omega)
            rwa [chunkRanges_cons hle2] at this
        · rw [chunkRanges_nil (by omega)]
          simp
      · rw [chunkRanges_nil (by omega)]
        exact List.chain'_nil

/-! ### Aggregator lemmas -/

/-- The monotonic (running-total) counter stored for wallet u, 0 when absent. -/
def lbBuysOf (u : String) (m : List (String × LBStats)) : Nat :=
  ((getEntry u m).getD { totalBuys := 0, bonusPercent := 0 }).totalBuys

/-- The summed counter stored for wallet u in the final-summary map, 0 when absent. -/
def fsClaimsOf (u : String) (m : List (String × FSStats)) : Nat :=
  ((getEntry u m).getD { totalBuys := 0, totalClaims := 0, bonusPercent := 0 }).totalClaims

theorem applyBuyLB_max (m : List (String × LBStats)) (ev : BuyEvent) :
    lbBuysOf (toLower ev.user) (applyBuyLB m ev) =
      max (lbBuysOf (toLower ev.user) m) ev.userTotalBuys := by
  unfold applyBuyLB lbBuysOf
  cases hg : getEntry (toLower ev.user) m with
  | none => simp [hg, getEntry_setEntry_self]
  | some s =>
      by_cases hlt : s.totalBuys < ev.userTotalBuys
      · simp only [hg, if_pos hlt, getEntry_setEntry_self, Option.getD_some]
        omega
      · simp only [hg, if_neg hlt, Option.getD_some]
        omega

theorem applyClaim_sum (m : List (String × FSStats)) (ev : ClaimEvent) :
    fsClaimsOf (toLower ev.user) (applyClaim m ev) =
      fsClaimsOf (toLower ev.user) m + ev.allocationsClaimed := by
  unfold applyClaim fsClaimsOf
  cases hg : getEntry (toLower ev.user) m with
  | none => simp [hg, getEntry_setEntry_self]
  | some s => simp [hg, getEntry_setEntry_self]

theorem applyClaim_frame {u : String} (m : List (String × FSStats)) (ev : ClaimEvent)
    (h : u ≠ toLower ev.user) : fsClaimsOf u (applyClaim m ev) = fsClaimsOf u m := by
  unfold applyClaim fsClaimsOf
  rw [getEntry_setEntry_ne h]

theorem foldClaims_sum (u : String) : ∀ (evs : List ClaimEvent) (m : List (String × FSStats)),
    fsClaimsOf u (evs.foldl applyClaim m) =
      fsClaimsOf u m +
        ((evs.filter fun e => toLower e.user == u).map ClaimEvent.allocationsClaimed).sum := by
  intro evs
  induction evs with
  | nil => intro m; simp
  | cons e evs ih =>
      intro m
      simp only [List.foldl_cons, ih]
      by_cases he : toLower e.user = u
      · rw [List.filter_cons_of_pos (by simp [he])]
        rw [← he, applyClaim_sum]
        simp
        omega
      · rw [List.filter_cons_of_neg (by simp [he])]
        rw [applyClaim_frame _ _ (fun hu => he hu.symm)]

/-! ### Map-key invariants -/

theorem nodup_keys_applyBuyLB {m : List (String × LBStats)} (ev : BuyEvent)
    (h : (m.map Prod.fst).Nodup) : ((applyBuyLB m ev).map Prod.fst).Nodup := by
  unfold applyBuyLB
  cases hg : getEntry (toLower ev.user) m with
  | none =>
      simp only [hg]
      exact nodup_map_fst_setEntry _ _ h
  | some s =>
      by_cases hlt : s.totalBuys < ev.userTotalBuys
      · simp only [hg, if_pos hlt]
        exact nodup_map_fst_setEntry _ _ h
      · simpa [hg, if_neg hlt] using h

theorem nodup_keys_foldBuyLB (evs : List BuyEvent) :
    ∀ m : List (String × LBStats), (m.map Prod.fst).Nodup →
      (((evs.foldl applyBuyLB m)).map Prod.fst).Nodup := by
  induction evs with
  | nil => intro m h; simpa using h
  | cons e evs ih =>
      intro m h
      exact ih _ (nodup_keys_applyBuyLB e h)

theorem keys_applyBuyLB_sub {m : List (String × LBStats)} {ev : BuyEvent} {u : String}
    (h : u ∈ (applyBuyLB m ev).map Prod.fst) :
    u = toLower ev.user ∨ u ∈ m.map Prod.fst := by
  unfold applyBuyLB at h
  cases hg : getEntry (toLower ev.user) m with
  | none =>
      simp only [hg] at h
      exact mem_map_fst_setEntry.mp h
  | some s =>
      by_cases hlt : s.totalBuys < ev.userTotalBuys
      · simp only [hg, if_pos hlt] at h
        exact mem_map_fst_setEntry.mp h
      · simp only [hg, if_neg hlt] at h
        exact Or.inr h

theorem keys_foldBuyLB_sub (evs : List BuyEvent) :
    ∀ (m : List (String × LBStats)) (u : String),
      u ∈ ((evs.foldl applyBuyLB m)).map Prod.fst →
      u ∈ m.map Prod.fst ∨ ∃ ev ∈ evs, u = toLower ev.user := by
  induction evs with
  | nil => intro m u h; exact Or.inl (by simpa using h)
  | cons e evs ih =>
      intro m u h
      rcases ih _ u h with hm | ⟨ev, hev, hu⟩
      · rcases keys_applyBuyLB_sub hm with hu | hm
        · exact Or.inr ⟨e, List.mem_cons_self e evs, hu⟩
        · exact Or.inl hm
      · exact Or.inr ⟨ev, List.mem_cons_of_mem e hev, hu⟩

/-! ### Enricher lemmas -/

theorem enrichLB_keys (readBonus : String → Option Nat) (m : List (String × LBStats)) :
    (enrichLB readBonus m).map Prod.fst = m.map Prod.fst := by
  unfold enrichLB
  rw [List.map_map]
  apply List.map_congr_left
  intro e he
  cases hr : readBonus e.1 <;> simp [hr]

theorem enrichFS_keys (readBonus : String → Option Nat) (m : List (String × FSStats)) :
    (enrichFS readBonus m).map Prod.fst = m.map Prod.fst := by
  unfold enrichFS
  rw [List.map_map]
  apply List.map_congr_left
  intro e he
  cases hr : readBonus e.1 <;> simp [hr]

theorem getEntry_enrichFS (readBonus : String → Option Nat) (m : List (String × FSStats))
    (w : String) :
    getEntry w (enrichFS readBonus m) =
      (getEntry w m).map fun s =>
        match readBonus w with
        | some bp => { s with bonusPercent := bp }
        | none => s := by
  induction m with
  | nil => simp [enrichFS, getEntry]
  | cons e rest ih =>
      by_cases h : e.1 = w
      · subst h
        cases hr : readBonus e.1 <;> simp [enrichFS, getEntry, hr]
      · cases hr : readBonus e.1 <;>
          simpa [enrichFS, getEntry, hr, h] using ih

theorem getEntry_enrichLB (readBonus : String → Option Nat) (m : List (String × LBStats))
    (w : String) :
    getEntry w (enrichLB readBonus m) =
      (getEntry w m).map fun s =>
        match readBonus w with
        | some bp => { s with bonusPercent := bp }
        | none => s := by
  induction m with
  | nil => simp [enrichLB, getEntry]
  | cons e rest ih =>
      by_cases h : e.1 = w
      · subst h
        cases hr : readBonus e.1 <;> simp [enrichLB, getEntry, hr]
      · cases hr : readBonus e.1 <;>
          simpa [enrichLB, getEntry, hr, h] using ih

theorem buildFSRows_map_proj (f : (String × FSStats) → (String × FSStats))
    (hf : ∀ e, (f e).1 = e.1 ∧ (f e).2.totalBuys = e.2.totalBuys ∧
      (f e).2.totalClaims = e.2.totalClaims) (m : List (String × FSStats)) :
    (buildFSRows (m.map f)).map (fun r => (r.wallet, r.totalBuys, r.totalClaims)) =
      (buildFSRows m).map (fun r => (r.wallet, r.totalBuys, r.totalClaims)) := by
  induction m with
  | nil => simp [buildFSRows]
  | cons e rest ih =>
      obtain ⟨h1, h2, h3⟩ := hf e
      simp only [List.map_cons, buildFSRows, List.filterMap_cons] at ih ⊢
      by_cases hz : e.2.totalBuys = 0 ∧ e.2.totalClaims = 0
      · rw [if_pos (by rw [h2, h3]; exact hz), if_pos hz]
        exact ih
      · rw [if_neg (by rw [h2, h3]; exact hz), if_neg hz]
        simp only [List.map_cons, fsRowOf, h1, h2, h3] at ih ⊢
        rw [ih]

theorem enrichFS_as_map (readBonus : String → Option Nat) (m : List (String × FSStats)) :
    enrichFS readBonus m = m.map fun e =>
      match readBonus e.1 with
      | some bp => (e.1, { e.2 with bonusPercent := bp })
      | none => e := rfl

theorem buildFSRows_enrichFS_proj (readBonus : String → Option Nat)
    (m : List (String × FSStats)) :
    (buildFSRows (enrichFS readBonus m)).map (fun r => (r.wallet, r.totalBuys, r.totalClaims)) =
      (buildFSRows m).map (fun r => (r.wallet, r.totalBuys, r.totalClaims)) := by
  rw [enrichFS_as_map]
  apply buildFSRows_map_proj
  intro e
  cases readBonus e.1 <;> simp

theorem buildLBRows_map_proj (f : (String × LBStats) → (String × LBStats))
    (hf : ∀ e, (f e).1 = e.1 ∧ (f e).2.totalBuys = e.2.totalBuys)
    (m : List (String × LBStats)) :
    (buildLBRows (m.map f)).map (fun r => (r.wallet, r.totalBuys)) =
      (buildLBRows m).map (fun r => (r.wallet, r.totalBuys)) := by
  induction m with
  | nil => simp [buildLBRows]
  | cons e rest ih =>
      obtain ⟨h1, h2⟩ := hf e
      simp only [List.map_cons, buildLBRows, List.filterMap_cons] at ih ⊢
      by_cases hz : e.2.totalBuys = 0
      · rw [if_pos (by rw [h2]; exact hz), if_pos hz]
        exact ih
      · rw [if_neg (by rw [h2]; exact hz), if_neg hz]
        simp only [List.map_cons, lbRowOf, h1, h2] at ih ⊢
        rw [ih]

theorem enrichLB_as_map (readBonus : String → Option Nat) (m : List (String × LBStats)) :
    enrichLB readBonus m = m.map fun e =>
      match readBonus e.1 with
      | some bp => (e.1, { e.2 with bonusPercent := bp })
      | none => e := rfl

theorem buildLBRows_enrichLB_proj (readBonus : String → Option Nat)
    (m : List (String × LBStats)) :
    (buildLBRows (enrichLB readBonus m)).map (fun r => (r.wallet, r.totalBuys)) =
      (buildLBRows m).map (fun r => (r.wallet, r.totalBuys)) := by
  rw [enrichLB_as_map]
  apply buildLBRows_map_proj
  intro e
  cases readBonus e.1 <;> simp

end DoubleBagz

namespace DoubleBagz

/-! ### Comparator characterizations -/

theorem lbBefore_iff (a b : LBRow) : lbBefore a b = true ↔
    b.totalBuys < a.totalBuys ∨
      (a.totalBuys = b.totalBuys ∧ b.bonusPercent ≤ a.bonusPercent) := by
  unfold lbBefore
  by_cases h : a.totalBuys = b.totalBuys <;> simp [h]

theorem lbBefore_total (a b : LBRow) : lbBefore a b = true ∨ lbBefore b a = true := by
  rw [lbBefore_iff, lbBefore_iff]
  omega

theorem lbBefore_trans (a b c : LBRow) (h1 : lbBefore a b = true)
    (h2 : lbBefore b c = true) : lbBefore a c = true := by
  rw [lbBefore_iff] at h1 h2 ⊢
  omega

theorem p1Before_iff (a b : Part1Row) : p1Before a b = true ↔
    b.totalBuys ≤ a.totalBuys := by
  simp [p1Before]

/-! ### Row provenance -/

theorem eq_lbRowOf_of_mem {m : List (String × LBStats)} {r : LBRow}
    (h : r ∈ buildLBRows m) : ∃ e ∈ m, r = lbRowOf e.1 e.2 := by
  unfold buildLBRows at h
  rcases List.mem_filterMap.mp h with ⟨e, he, hsome⟩
  by_cases hz : e.2.totalBuys = 0
  · rw [if_pos hz] at hsome
    cases hsome
  · rw [if_neg hz] at hsome
    exact ⟨e, he, (Option.some_inj.mp hsome).symm⟩

theorem eq_fsRowOf_of_mem {m : List (String × FSStats)} {r : SummaryRow}
    (h : r ∈ buildFSRows m) : ∃ e ∈ m, r = fsRowOf e.1 e.2 := by
  unfold buildFSRows at h
  rcases List.mem_filterMap.mp h with ⟨e, he, hsome⟩
  by_cases hz : e.2.totalBuys = 0 ∧ e.2.totalClaims = 0
  · rw [if_pos hz] at hsome
    cases hsome
  · rw [if_neg hz] at hsome
    exact ⟨e, he, (Option.some_inj.mp hsome).symm⟩

theorem buildLBRows_wallets_sublist (m : List (String × LBStats)) :
    ((buildLBRows m).map LBRow.wallet).Sublist (m.map Prod.fst) := by
  induction m with
  | nil => simp [buildLBRows]
  | cons e rest ih =>
      simp only [buildLBRows, List.filterMap_cons, List.map_cons]
      by_cases hz : e.2.totalBuys = 0
      · rw [if_pos hz]
        exact ih.cons e.1
      · rw [if_neg hz]
        simp only [List.map_cons, lbRowOf]
        exact ih.cons₂ e.1

theorem mem_of_getEntry {β : Type} {w : String} {v : β} :
    ∀ {m : List (String × β)}, getEntry w m = some v → (w, v) ∈ m := by
  intro m
  induction m with
  | nil => intro h; cases h
  | cons e rest ih =>
      intro h
      unfold getEntry at h
      by_cases he : e.1 = w
      · rw [if_pos he] at h
        have hv := Option.some_inj.mp h
        have : (w, v) = e := by
          cases e
          simp_all
        rw [this]
        exact List.mem_cons_self _ _
      · rw [if_neg he] at h
        exact List.mem_cons_of_mem _ (ih h)

/-! ### part_001 key invariants -/

theorem nodup_keys_bumpTotals {m : List (String × Nat)} (u : String)
    (h : (m.map Prod.fst).Nodup) : ((bumpTotals m u).map Prod.fst).Nodup := by
  unfold bumpTotals
  cases getEntry u m
  · exact nodup_map_fst_setEntry _ _ h
  · exact nodup_map_fst_setEntry _ _ h

theorem nodup_keys_foldBump (evs : List BuyEvent) :
    ∀ m : List (String × Nat), (m.map Prod.fst).Nodup →
      ((evs.foldl (fun m ev => bumpTotals m ev.user) m).map Prod.fst).Nodup := by
  induction evs with
  | nil => intro m h; simpa using h
  | cons e evs ih =>
      intro m h
      exact ih _ (nodup_keys_bumpTotals e.user h)

theorem part1AllRows_wallets (mb : Nat) (evs : List BuyEvent) :
    (part1AllRows mb evs).map Part1Row.wallet =
      (evs.foldl (fun m ev => bumpTotals m ev.user) []).map Prod.fst := by
  unfold part1AllRows
  rw [List.map_map]
  apply List.map_congr_left
  intro e he
  simp [part1RowOf]

/-! ### Claim theorems -/

/-- Claim C1 counterexample: the v1 leaderboard aggregator (leaderboard
route.ts, first version, lines 84-88) overwrites the stored running-total
counter unconditionally.  After folding events carrying running totals 7 then
5 for one wallet, the stored counter is 5: the store was replaced by a value
that is not strictly greater than the stored 7, contradicting the claim's
merge rule. -/
theorem c1_counterexample :
    getEntry "0xaa" (List.foldl applyBuyV1 []
      [{ user := "0xAA", totalBuys := 7, ethAmount := 0, newBonusPercent := 0 },
       { user := "0xAA", totalBuys := 5, ethAmount := 0, newBonusPercent := 0 }]) =
      some { totalBuys := 5, bonusPercent := 0 } ∧ (5 : Nat) < 7 := by
  exact ⟨by decide, by decide⟩

/-- Claim C1 (amended): in the v2 leaderboard aggregator (lines 262-268) one
fold step stores exactly the maximum of the stored counter and the event's
running total — i.e. it replaces the stored value only when the event's value
is strictly greater — so folding running totals [3, 7, 5, 10] in order stores
10, the maximum seen; the superseded v1 aggregator keeps the last-seen value
instead, which on [3, 7, 5, 10] also happens to be 10. -/
theorem c1_monotonic_merge :
    (∀ (m : List (String × LBStats)) (ev : BuyEvent),
      lbBuysOf (toLower ev.user) (applyBuyLB m ev) =
        max (lbBuysOf (toLower ev.user) m) ev.userTotalBuys) ∧
    getEntry "0xaa" (List.foldl applyBuyLB []
      ([3, 7, 5, 10].map fun n =>
        { user := "0xAa", ethPaid := 0, userTotalBuys := n, buysInCurrentWindow := 0 })) =
      some { totalBuys := 10, bonusPercent := 0 } ∧
    getEntry "0xaa" (List.foldl applyBuyV1 []
      ([3, 7, 5, 10].map fun n =>
        { user := "0xAa", totalBuys := n, ethAmount := 0, newBonusPercent := 0 })) =
      some { totalBuys := 10, bonusPercent := 0 } := by
  exact ⟨applyBuyLB_max, by decide, by decide⟩

/-- Claim C8: the summed (delta-field) counter after folding the Claim events
equals the stored value plus the arithmetic sum of the allocationsClaimed
amounts of that participant's events; folding amounts [2, 5, 1] from the
empty map yields a stored value of 8. -/
theorem c8_delta_sum :
    (∀ (evs : List ClaimEvent) (m : List (String × FSStats)) (u : String),
      fsClaimsOf u (evs.foldl applyClaim m) =
        fsClaimsOf u m +
          ((evs.filter fun e => toLower e.user == u).map
            ClaimEvent.allocationsClaimed).sum) ∧
    fsClaimsOf "0xaa" (List.foldl applyClaim []
      ([2, 5, 1].map fun n =>
        { user := "0xAa", allocationsClaimed := n, tokensPaid := 0 })) = 8 := by
  exact ⟨fun evs m u => foldClaims_sum u evs m, by decide⟩

/-- Claim C10: the enrichment phase changes only the bonusPercent field — the
wallet keys, the monotonic counter and the summed counter of every entry of
the aggregated mapping are unchanged, and no entry is added or removed,
whatever each per-wallet read returns (success or failure).  Stated for the
final-summary map and for the v2 leaderboard map. -/
theorem c10_enrichment_frame :
    (∀ (readBonus : String → Option Nat) (m : List (String × FSStats)),
      (enrichFS readBonus m).map (fun e => (e.1, e.2.totalBuys, e.2.totalClaims)) =
        m.map fun e => (e.1, e.2.totalBuys, e.2.totalClaims)) ∧
    (∀ (readBonus : String → Option Nat) (m : List (String × LBStats)),
      (enrichLB readBonus m).map (fun e => (e.1, e.2.totalBuys)) =
        m.map fun e => (e.1, e.2.totalBuys)) := by
  constructor
  · intro readBonus m
    rw [enrichFS_as_map, List.map_map]
    apply List.map_congr_left
    intro e he
    cases hr : readBonus e.1 <;> simp [hr]
  · intro readBonus m
    rw [enrichLB_as_map, List.map_map]
    apply List.map_congr_left
    intro e he
    cases hr : readBonus e.1 <;> simp [hr]

/-- Claim C4: for every block range fromB ≤ toB and every chunk size C ≥ 1,
scanning in chunks and concatenating the per-chunk log results in increasing
block order yields exactly the log sequence of a single unchunked query over
the whole range, hence also the same decoded-event sequence after mapping any
decoder over the logs. -/
theorem c4_chunked_scan_eq {α β : Type} (chain : Nat → List α) (dec : α → β)
    (C fromB toB : Nat) (_hC : 1 ≤ C) (_hrange : fromB ≤ toB) :
    scanE (fun lo hi => Except.ok (getLogsRange chain lo hi)) C fromB toB =
      Except.ok (getLogsRange chain fromB toB) ∧
    Except.map (fun logs => logs.map dec)
      (scanE (fun lo hi => Except.ok (getLogsRange chain lo hi)) C fromB toB) =
      Except.ok ((getLogsRange chain fromB toB).map dec) := by
  have h1 := scanE_chunks_aux chain C (toB + 1 - fromB) fromB toB (Nat.le_refl _)
  have hcov := chunkRanges_cover_aux C (toB + 1 - fromB) fromB toB (Nat.le_refl _)
  have h2 : ((chunkRanges C fromB toB).flatMap fun p => getLogsRange chain p.1 p.2) =
      getLogsRange chain fromB toB := by
    simp only [getLogsRange]
    rw [← List.flatMap_assoc, hcov]
  have hmain := h1.trans (congrArg Except.ok h2)
  refine ⟨hmain, ?_⟩
  rw [hmain]
  rfl

/-- Claim C4 witness: chunk size 1 over the range [0, 2] of the chain whose
block n carries the single log n. -/
theorem c4_witness :
    ((1 : Nat) ≤ 1 ∧ (0 : Nat) ≤ 2) ∧
    scanE (fun lo hi => Except.ok (getLogsRange (fun n => [n]) lo hi)) 1 0 2 =
      Except.ok (getLogsRange (fun n => [n]) 0 2) ∧
    getLogsRange (fun n : Nat => [n]) 0 2 = [0, 1, 2] := by
  exact ⟨⟨by decide, by decide⟩,
    (c4_chunked_scan_eq (fun n => [n]) id 1 0 2 (by decide) (by decide)).1, by decide⟩

/-- Claim C5: for fromB ≤ toB the scan partitions [fromB, toB] into inclusive
sub-ranges lying inside the range, each of width toBlock − fromBlock ≤ C
(hence covering at most C + 1 block numbers), consecutive and non-overlapping
(each sub-range starts exactly one block after the previous one ends), in
increasing block order; the concatenation of the sub-ranges enumerates every
block of [fromB, toB] exactly once, and the scan issues exactly one log query
per sub-range in that order, concatenating the results. -/
theorem c5_chunk_partition {α : Type} (chain : Nat → List α) (C fromB toB : Nat)
    (_hrange : fromB ≤ toB) :
    (∀ p ∈ chunkRanges C fromB toB,
      fromB ≤ p.1 ∧ p.1 ≤ p.2 ∧ p.2 - p.1 ≤ C ∧ p.2 ≤ toB) ∧
    List.Chain' (fun p q => q.1 = p.2 + 1) (chunkRanges C fromB toB) ∧
    ((chunkRanges C fromB toB).flatMap fun p => List.range' p.1 (p.2 + 1 - p.1)) =
      List.range' fromB (toB + 1 - fromB) ∧
    scanE (fun lo hi => Except.ok (getLogsRange chain lo hi)) C fromB toB =
      Except.ok ((chunkRanges C fromB toB).flatMap fun p => getLogsRange chain p.1 p.2) := by
  exact ⟨chunkRanges_bounds_aux C (toB + 1 - fromB) fromB toB (Nat.le_refl _),
    chunkRanges_chain_aux C (toB + 1 - fromB) fromB toB (Nat.le_refl _),
    chunkRanges_cover_aux C (toB + 1 - fromB) fromB toB (Nat.le_refl _),
    scanE_chunks_aux chain C (toB + 1 - fromB) fromB toB (Nat.le_refl _)⟩

/-- Claim C5 witness: chunk parameter 2 over the range [0, 5] produces the
sub-ranges [0, 2] and [3, 5], which enumerate the blocks 0..5 exactly once. -/
theorem c5_witness :
    (0 : Nat) ≤ 5 ∧
    chunkRanges 2 0 5 = [(0, 2), (3, 5)] ∧
    ((chunkRanges 2 0 5).flatMap fun p => List.range' p.1 (p.2 + 1 - p.1)) =
      [0, 1, 2, 3, 4, 5] := by
  have h := (c5_chunk_partition (fun n => [n]) 2 0 5 (by decide)).2.2.1
  have hcr : chunkRanges 2 0 5 = [(0, 2), (3, 5)] := by
    rw [chunkRanges_cons (by omega), chunkRanges_cons (by omega), chunkRanges_nil (by omega)]
    decide
  refine ⟨by decide, hcr, ?_⟩
  rw [h]
  decide

/-- Claim C7: whenever the configured deploy (from) block exceeds the current
chain height, the chunk loop never runs: the scan returns an empty log
sequence — no query is even issued, so a failing RPC backend cannot make it
raise — and the whole leaderboard build returns an empty row sequence rather
than an error. -/
theorem c7_empty_range (latest deploy : Nat)
    (q : Nat → Nat → Except String (List BuyEvent)) (readBonus : String → Option Nat)
    (h : latest < deploy) :
    scanE q CHUNK_SIZE_BLOCKS deploy latest = Except.ok [] ∧
    leaderboardV2 latest deploy q readBonus = Except.ok [] := by
  have hscan := scanE_nil q (C := CHUNK_SIZE_BLOCKS) h
  refine ⟨hscan, ?_⟩
  unfold leaderboardV2
  rw [hscan]
  rfl

/-- Claim C7 witness: deploy block 10 above chain height 5, with an RPC
backend that would fail every query: the build still returns ok with no rows. -/
theorem c7_witness :
    (5 : Nat) < 10 ∧
    scanE (fun _ _ => (Except.error "rpc down" : Except String (List BuyEvent)))
      CHUNK_SIZE_BLOCKS 10 5 = Except.ok [] ∧
    leaderboardV2 5 10 (fun _ _ => Except.error "rpc down") (fun _ => none) =
      Except.ok [] := by
  have h := c7_empty_range 5 10 (fun _ _ => Except.error "rpc down") (fun _ => none)
    (by decide)
  exact ⟨by decide, h.1, h.2⟩

/-- Claim C2 counterexample: two rows with equal monotonic counter and equal
enrichment value are NOT ordered by ascending ParticipantId.  With map
insertion order ["0xbb", "0xaa"], the v2 leaderboard sort leaves "0xbb"
first, although "0xaa" is the lexicographically smaller wallet. -/
theorem c2_counterexample :
    (sortLBRows
      [{ wallet := "0xbb", totalBuys := 5, bonusPercent := 2, bonusValueUsd := 0 },
       { wallet := "0xaa", totalBuys := 5, bonusPercent := 2, bonusValueUsd := 0 }]).map
      LBRow.wallet = ["0xbb", "0xaa"] ∧
    ("0xaa" : String).data < ("0xbb" : String).data := by
  constructor
  · simp [sortLBRows, stableSort, orderedIns, lbBefore]
  · decide

/-- Claim C2 (amended): the v2 leaderboard sort returns a permutation of the
built rows ordered descending primarily by the monotonic counter, with ties
broken descending by the enrichment value; rows equal on both sort keys keep
their relative map-insertion order — the sort is stable, and no ParticipantId
tie-break exists.  The unnamed handler sorts descending by the counter alone
(also stably) and truncates to its 100-row cap only after the full sort; the
v2 handler applies no row cap at all. -/
theorem c2_sort_order :
    (∀ l : List LBRow,
      (sortLBRows l).Perm l ∧
      (sortLBRows l).Pairwise (fun a b => b.totalBuys < a.totalBuys ∨
        (a.totalBuys = b.totalBuys ∧ b.bonusPercent ≤ a.bonusPercent)) ∧
      ∀ n bp : Nat,
        (sortLBRows l).filter
            (fun r => decide (r.totalBuys = n) && decide (r.bonusPercent = bp)) =
          l.filter (fun r => decide (r.totalBuys = n) && decide (r.bonusPercent = bp))) ∧
    (∀ (mb : Nat) (evs : List BuyEvent),
      part1Top mb evs = (stableSort p1Before (part1AllRows mb evs)).take 100 ∧
      (stableSort p1Before (part1AllRows mb evs)).Perm (part1AllRows mb evs) ∧
      (stableSort p1Before (part1AllRows mb evs)).Pairwise
        (fun a b => b.totalBuys ≤ a.totalBuys)) := by
  constructor
  · intro l
    refine ⟨stableSort_perm lbBefore l, ?_, ?_⟩
    · have h := pairwise_stableSort lbBefore_total lbBefore_trans l
      exact h.imp fun hab => (lbBefore_iff _ _).mp hab
    · intro n bp
      apply filter_stableSort
      intro a b ha hb
      simp only [Bool.and_eq_true, decide_eq_true_eq] at ha hb
      rw [lbBefore_iff]
      omega
  · intro mb evs
    refine ⟨rfl, stableSort_perm _ _, ?_⟩
    have htot : ∀ a b : Part1Row, p1Before a b = true ∨ p1Before b a = true := by
      intro a b
      rw [p1Before_iff, p1Before_iff]
      omega
    have htrans : ∀ a b c : Part1Row, p1Before a b = true → p1Before b c = true →
        p1Before a c = true := by
      intro a b c h1 h2
      rw [p1Before_iff] at h1 h2 ⊢
      omega
    have h := pairwise_stableSort htot htrans (part1AllRows mb evs)
    exact h.imp fun hab => (p1Before_iff _ _).mp hab

/-- Claim C3 counterexample: the unnamed handler computes the row value
without the enrichment factor.  Ten buy events from one wallet produce the
row (totalBuys 10, bonusPercent 1, value 10 × 0.1 = 1), whereas the claimed
formula counter × unitValue × (1 + bonus / 100) would give 1.01. -/
theorem c3_counterexample :
    part1Top 100 (List.replicate 10
      { user := "0xAb", ethPaid := 0, userTotalBuys := 0, buysInCurrentWindow := 0 }) =
      [{ wallet := "0xAb", totalBuys := 10, bonusPercent := 1, bonusValueUsd := 1 }] ∧
    (1 : ℚ) ≠ (10 : ℚ) * PRICE_PER_BUY_USD * (1 + (1 : ℚ) / 100) := by
  constructor
  · simp [part1Top, part1AllRows, bumpTotals, getEntry, setEntry, part1RowOf,
      stableSort, orderedIns, p1Before, List.replicate]
  · rw [PRICE_PER_BUY_USD]
    norm_num

/-- Claim C3 (amended): in the v2 leaderboard and final-summary handlers every
output row's value equals counter × unitValue × (1 + bonusPercent / 100) —
for counter 3, enrichment 5 and unit value 0.10 that is exactly 0.315 in the
exact-rational model of the arithmetic; the unnamed handler instead computes
counter × unitValue with no enrichment factor. -/
theorem c3_score_formula :
    (∀ (m : List (String × LBStats)) (r : LBRow), r ∈ sortLBRows (buildLBRows m) →
      r.bonusValueUsd =
        (r.totalBuys : ℚ) * PRICE_PER_BUY_USD * (1 + (r.bonusPercent : ℚ) / 100)) ∧
    (∀ (m : List (String × FSStats)) (r : SummaryRow), r ∈ sortFSRows (buildFSRows m) →
      r.bonusValueUsd =
        (r.totalBuys : ℚ) * PRICE_PER_BUY_USD * (1 + (r.bonusPercent : ℚ) / 100)) ∧
    (lbRowOf "0xaa" { totalBuys := 3, bonusPercent := 5 }).bonusValueUsd = (0.315 : ℚ) ∧
    (∀ (mb : Nat) (w : String) (n : Nat),
      (part1RowOf mb w n).bonusValueUsd = (n : ℚ) * (1 / 10)) := by
  refine ⟨?_, ?_, ?_, fun mb w n => rfl⟩
  · intro m r hr
    have hr2 := (stableSort_perm lbBefore (buildLBRows m)).mem_iff.mp hr
    rcases eq_lbRowOf_of_mem hr2 with ⟨e, he, rfl⟩
    simp [lbRowOf]
  · intro m r hr
    have hr2 := (stableSort_perm fsBefore (buildFSRows m)).mem_iff.mp hr
    rcases eq_fsRowOf_of_mem hr2 with ⟨e, he, rfl⟩
    simp [fsRowOf]
  · simp [lbRowOf, PRICE_PER_BUY_USD]
    norm_num

/-- Claim C3 witness: the single-participant map with counter 3 and bonus 5
yields its row in the sorted output, and that row satisfies the formula, with
value exactly 0.315. -/
theorem c3_witness :
    (lbRowOf "0xaa" { totalBuys := 3, bonusPercent := 5 } ∈
      sortLBRows (buildLBRows [("0xaa", { totalBuys := 3, bonusPercent := 5 })])) ∧
    (lbRowOf "0xaa" { totalBuys := 3, bonusPercent := 5 }).bonusValueUsd =
      ((lbRowOf "0xaa" { totalBuys := 3, bonusPercent := 5 }).totalBuys : ℚ) *
        PRICE_PER_BUY_USD *
        (1 + ((lbRowOf "0xaa" { totalBuys := 3, bonusPercent := 5 }).bonusPercent : ℚ) / 100) ∧
    (lbRowOf "0xaa" { totalBuys := 3, bonusPercent := 5 }).bonusValueUsd = (0.315 : ℚ) := by
  have hmem : lbRowOf "0xaa" { totalBuys := 3, bonusPercent := 5 } ∈
      sortLBRows (buildLBRows [("0xaa", { totalBuys := 3, bonusPercent := 5 })]) := by
    show lbRowOf "0xaa" { totalBuys := 3, bonusPercent := 5 } ∈
      [lbRowOf "0xaa" { totalBuys := 3, bonusPercent := 5 }]
    exact List.mem_singleton.mpr rfl
  refine ⟨hmem, c3_score_formula.1 _ _ hmem, ?_⟩
  simp [lbRowOf, PRICE_PER_BUY_USD]
  norm_num


/-- Claim C6: per-participant enrichment failures never abort the build or
change which rows are produced: whatever each per-wallet read returns, the
output rows keep exactly the same wallets and counters (in the same order,
hence the same row count) as under any other read outcomes; a wallet whose
read fails keeps its pre-enrichment zero bonusPercent default, and a wallet
whose read succeeds gets the read value. -/
theorem c6_partial_enrichment (readBonus : String → Option Nat)
    (m : List (String × FSStats)) (h0 : ∀ e ∈ m, e.2.bonusPercent = 0) :
    ((buildFSRows (enrichFS readBonus m)).map
        (fun r => (r.wallet, r.totalBuys, r.totalClaims)) =
      (buildFSRows m).map fun r => (r.wallet, r.totalBuys, r.totalClaims)) ∧
    (buildFSRows (enrichFS readBonus m)).length = (buildFSRows m).length ∧
    (∀ w s, getEntry w (enrichFS readBonus m) = some s →
      (readBonus w = none → s.bonusPercent = 0) ∧
      ∀ bp, readBonus w = some bp → s.bonusPercent = bp) := by
  refine ⟨buildFSRows_enrichFS_proj readBonus m, ?_, ?_⟩
  · have h := congrArg List.length (buildFSRows_enrichFS_proj readBonus m)
    simpa using h
  · intro w s hs
    rw [getEntry_enrichFS] at hs
    cases hg : getEntry w m with
    | none =>
        rw [hg] at hs
        cases hs
    | some s0 =>
        rw [hg] at hs
        constructor
        · intro hr
          rw [hr] at hs
          have hss : s0 = s := by
            simpa using hs
          have h00 := h0 (w, s0) (mem_of_getEntry hg)
          rw [← hss]
          exact h00
        · intro bp hr
          rw [hr] at hs
          have hss : { s0 with bonusPercent := bp } = s := by
            simpa using hs
          rw [← hss]

/-- Claim C6 witness: three aggregated participants with nonzero counters and
zero default bonus; the read fails for exactly the second one.  The build
still returns three rows, the failed wallet keeps bonusPercent 0 and the
others get the read value 5. -/
theorem c6_witness :
    (∀ e ∈ ([("0xaa", { totalBuys := 3, totalClaims := 0, bonusPercent := 0 }),
             ("0xbb", { totalBuys := 2, totalClaims := 0, bonusPercent := 0 }),
             ("0xcc", { totalBuys := 1, totalClaims := 0, bonusPercent := 0 })] :
        List (String × FSStats)), e.2.bonusPercent = 0) ∧
    (buildFSRows (enrichFS (fun w => if w = "0xbb" then none else some 5)
        [("0xaa", { totalBuys := 3, totalClaims := 0, bonusPercent := 0 }),
         ("0xbb", { totalBuys := 2, totalClaims := 0, bonusPercent := 0 }),
         ("0xcc", { totalBuys := 1, totalClaims := 0, bonusPercent := 0 })])).length = 3 ∧
    getEntry "0xbb" (enrichFS (fun w => if w = "0xbb" then none else some 5)
        [("0xaa", { totalBuys := 3, totalClaims := 0, bonusPercent := 0 }),
         ("0xbb", { totalBuys := 2, totalClaims := 0, bonusPercent := 0 }),
         ("0xcc", { totalBuys := 1, totalClaims := 0, bonusPercent := 0 })]) =
      some { totalBuys := 2, totalClaims := 0, bonusPercent := 0 } ∧
    getEntry "0xaa" (enrichFS (fun w => if w = "0xbb" then none else some 5)
        [("0xaa", { totalBuys := 3, totalClaims := 0, bonusPercent := 0 }),
         ("0xbb", { totalBuys := 2, totalClaims := 0, bonusPercent := 0 }),
         ("0xcc", { totalBuys := 1, totalClaims := 0, bonusPercent := 0 })]) =
      some { totalBuys := 3, totalClaims := 0, bonusPercent := 5 } := by
  refine ⟨by decide, ?_, by decide, by decide⟩
  have h := (c6_partial_enrichment (fun w => if w = "0xbb" then none else some 5)
    [("0xaa", { totalBuys := 3, totalClaims := 0, bonusPercent := 0 }),
     ("0xbb", { totalBuys := 2, totalClaims := 0, bonusPercent := 0 }),
     ("0xcc", { totalBuys := 1, totalClaims := 0, bonusPercent := 0 })] (by decide)).2.1
  rw [h]
  decide

/-- Claim C9 counterexample: the unnamed handler does not case-normalize the
wallet: one decoded event with the (checksum-style) mixed-case address "0xAb"
yields a row whose ParticipantId is "0xAb", not its lower-cased form. -/
theorem c9_counterexample :
    (part1Top 100
        [{ user := "0xAb", ethPaid := 0, userTotalBuys := 0, buysInCurrentWindow := 0 }]).map
      Part1Row.wallet = ["0xAb"] ∧
    toLower "0xAb" = "0xab" ∧ ("0xAb" : String) ≠ "0xab" := by
  refine ⟨?_, by decide, by decide⟩
  simp [part1Top, part1AllRows, bumpTotals, getEntry, setEntry, part1RowOf,
    stableSort, orderedIns, p1Before]

/-- Claim C9 (amended): in the v2 leaderboard pipeline every output row's
ParticipantId is the lower-cased form of the chain address carried by one of
the scanned events, and no two rows share a ParticipantId; the unnamed
handler keeps the decoded address as-is (not case-normalized), but its rows'
ParticipantIds are still pairwise distinct. -/
theorem c9_wallet_keys :
    (∀ (evs : List BuyEvent) (readBonus : String → Option Nat) (r : LBRow),
      r ∈ sortLBRows (buildLBRows (enrichLB readBonus (evs.foldl applyBuyLB []))) →
      ∃ ev ∈ evs, r.wallet = toLower ev.user) ∧
    (∀ (evs : List BuyEvent) (readBonus : String → Option Nat),
      ((sortLBRows (buildLBRows (enrichLB readBonus
        (evs.foldl applyBuyLB [])))).map LBRow.wallet).Nodup) ∧
    (∀ (mb : Nat) (evs : List BuyEvent),
      ((part1Top mb evs).map Part1Row.wallet).Nodup) := by
  refine ⟨?_, ?_, ?_⟩
  · intro evs readBonus r hr
    have hr2 := (stableSort_perm lbBefore _).mem_iff.mp hr
    rcases eq_lbRowOf_of_mem hr2 with ⟨e, he, rfl⟩
    have hkey : e.1 ∈ (enrichLB readBonus (evs.foldl applyBuyLB [])).map Prod.fst :=
      List.mem_map_of_mem Prod.fst he
    rw [enrichLB_keys] at hkey
    rcases keys_foldBuyLB_sub evs [] e.1 hkey with hnil | ⟨ev, hev, hu⟩
    · simp at hnil
    · exact ⟨ev, hev, by simpa [lbRowOf] using hu⟩
  · intro evs readBonus
    have hperm : ((sortLBRows (buildLBRows (enrichLB readBonus
        (evs.foldl applyBuyLB [])))).map LBRow.wallet).Perm
        ((buildLBRows (enrichLB readBonus (evs.foldl applyBuyLB []))).map LBRow.wallet) :=
      (stableSort_perm lbBefore _).map LBRow.wallet
    have hkeys : ((evs.foldl applyBuyLB []).map Prod.fst).Nodup :=
      nodup_keys_foldBuyLB evs [] (by simp)
    have hsub := buildLBRows_wallets_sublist (enrichLB readBonus (evs.foldl applyBuyLB []))
    rw [enrichLB_keys] at hsub
    exact (hperm.nodup_iff).mpr (hsub.nodup hkeys)
  · intro mb evs
    have hkeys : ((evs.foldl (fun m ev => bumpTotals m ev.user) []).map Prod.fst).Nodup :=
      nodup_keys_foldBump evs [] (by simp)
    have hall : ((part1AllRows mb evs).map Part1Row.wallet).Nodup := by
      rw [part1AllRows_wallets]
      exact hkeys
    have hperm : ((stableSort p1Before (part1AllRows mb evs)).map Part1Row.wallet).Perm
        ((part1AllRows mb evs).map Part1Row.wallet) :=
      (stableSort_perm p1Before _).map Part1Row.wallet
    have hsorted := (hperm.nodup_iff).mpr hall
    unfold part1Top
    have htake : ((stableSort p1Before (part1AllRows mb evs)).take 100).map
        Part1Row.wallet = ((stableSort p1Before
          (part1AllRows mb evs)).map Part1Row.wallet).take 100 := by
      rw [List.map_take]
    rw [htake]
    exact hsorted.sublist (List.take_sublist _ _)

/-- Claim C9 witness: one scanned event with mixed-case address "0xAa": the
single output row's wallet is "0xaa" = toLower "0xAa", and the wallets are
pairwise distinct. -/
theorem c9_witness :
    (lbRowOf "0xaa" { totalBuys := 7, bonusPercent := 5 } ∈
      sortLBRows (buildLBRows (enrichLB (fun _ => some 5) (List.foldl applyBuyLB []
        [{ user := "0xAa", ethPaid := 0, userTotalBuys := 7, buysInCurrentWindow := 0 }])))) ∧
    (∃ ev ∈
        [({ user := "0xAa", ethPaid := 0, userTotalBuys := 7, buysInCurrentWindow := 0 } :
          BuyEvent)],
      (lbRowOf "0xaa" { totalBuys := 7, bonusPercent := 5 }).wallet = toLower ev.user) ∧
    ((sortLBRows (buildLBRows (enrichLB (fun _ => some 5) (List.foldl applyBuyLB []
        [{ user := "0xAa", ethPaid := 0, userTotalBuys := 7, buysInCurrentWindow := 0 }])))).map LBRow.wallet).Nodup := by
  have hmem : lbRowOf "0xaa" { totalBuys := 7, bonusPercent := 5 } ∈
      sortLBRows (buildLBRows (enrichLB (fun _ => some 5) (List.foldl applyBuyLB []
        [{ user := "0xAa", ethPaid := 0, userTotalBuys := 7, buysInCurrentWindow := 0 }]))) := by
    show lbRowOf "0xaa" { totalBuys := 7, bonusPercent := 5 } ∈
      [lbRowOf "0xaa" { totalBuys := 7, bonusPercent := 5 }]
    exact List.mem_singleton.mpr rfl
  exact ⟨hmem, c9_wallet_keys.1 _ (fun _ => some 5) _ hmem,
    c9_wallet_keys.2.1
      [{ user := "0xAa", ethPaid := 0, userTotalBuys := 7, buysInCurrentWindow := 0 }]
      (fun _ => some 5)⟩


end DoubleBagz
